import Mathlib

/-!
Verification of the SOTA-Coding-Agent backend (`src/backend/server.py`).

Texts (Python `str` values) are modelled as `List Char` over Unicode scalar
values; byte strings as `List Nat` with entries below 256.  The external
collaborators that the server merely calls (the isort/black formatter and the
git client) are modelled as parameters; everything the server computes itself
(validation, base64 transport decoding, UTF-8 decoding with errors ignored,
the AI-REF candidate generation stub, the difflib unified diff, SHA-256
digests, seeds, and response assembly) is embedded as executable functions.
-/

/-- A Python `str`: a list of Unicode scalar values. -/
abbrev Text := List Char

/-- Shorthand turning a Lean string literal into a `Text`. -/
def T (s : String) : Text := s.data

/-- Python byte strings: lists of byte values. -/
abbrev Bytes := List Nat

/-- The path separator `os.sep` on the Linux deployment target. -/
def sepChar : Char := Char.ofNat 47

/-- A single-quote character (used in the AI-REF comment text). -/
def sqChar : Char := Char.ofNat 39

/-- Carriage return. -/
def crChar : Char := Char.ofNat 13

/-- Line feed. -/
def lfChar : Char := Char.ofNat 10

/-- `str.split(os.sep)`: split a text on the separator, keeping empty
segments, exactly as Python `"a/b".split("/") = ["a", "b"]` and
`"".split("/") = [""]`. -/
def splitSlashAux (acc : Text) : Text → List Text
  | [] => [acc]
  | c :: rest => if c = sepChar then acc :: splitSlashAux [] rest else splitSlashAux (acc ++ [c]) rest

/-- `path.split(os.sep)` from `server.py` lines 115 and 147. -/
def splitSlash (t : Text) : List Text := splitSlashAux [] t

/-- `".." in path.split(os.sep)` (server.py lines 115 and 147). -/
def hasTraversal (t : Text) : Bool := (splitSlash t).contains (T "..")

example : hasTraversal (T "../evil") = true := by decide
example : hasTraversal (T "a/b.py") = false := by decide
example : hasTraversal (T "a..b") = false := by decide

/-! ## UTF-8 encoding (Python `str.encode()`), used before hashing -/

/-- UTF-8 encoding of a single Unicode scalar value. -/
def utf8Char (c : Char) : Bytes :=
  let n := c.toNat
  if n < 128 then [n]
  else if n < 2048 then [192 + n / 64, 128 + n % 64]
  else if n < 65536 then [224 + n / 4096, 128 + n / 64 % 64, 128 + n % 64]
  else [240 + n / 262144, 128 + n / 4096 % 64, 128 + n / 64 % 64, 128 + n % 64]

/-- Python `str.encode()` (UTF-8). -/
def utf8Encode (t : Text) : Bytes := t.flatMap utf8Char

/-- Byte length of a text under UTF-8; this follows the spec wording
"skeleton byte lengths" (spec section 4.5), to be compared with the code,
which counts characters via `len(item.content)`. -/
def utf8Len (t : Text) : Nat := (utf8Encode t).length

/-! ## SHA-256 (`hashlib.sha256`), embedded as a pure function over bytes -/

/-- Truncate to a 32-bit word. -/
def w32 (n : Nat) : Nat := n % 4294967296

/-- 32-bit right rotation. -/
def rotr32 (k n : Nat) : Nat := n / 2 ^ k + n % 2 ^ k * 2 ^ (32 - k)

def bsig0 (x : Nat) : Nat := rotr32 2 x ^^^ rotr32 13 x ^^^ rotr32 22 x

def bsig1 (x : Nat) : Nat := rotr32 6 x ^^^ rotr32 11 x ^^^ rotr32 25 x

def ssig0 (x : Nat) : Nat := rotr32 7 x ^^^ rotr32 18 x ^^^ x / 2 ^ 3

def ssig1 (x : Nat) : Nat := rotr32 17 x ^^^ rotr32 19 x ^^^ x / 2 ^ 10

def chf (x y z : Nat) : Nat := x &&& y ^^^ (x ^^^ 4294967295) &&& z

def majf (x y z : Nat) : Nat := x &&& y ^^^ x &&& z ^^^ y &&& z

/-- The 64 SHA-256 round constants (FIPS 180-4, written in decimal). -/
def k256 : List Nat :=
  [1116352408, 1899447441, 3049323471, 3921009573, 961987163, 1508970993,
   2453635748, 2870763221, 3624381080, 310598401, 607225278, 1426881987,
   1925078388, 2162078206, 2614888103, 3248222580, 3835390401, 4022224774,
   264347078, 604807628, 770255983, 1249150122, 1555081692, 1996064986,
   2554220882, 2821834349, 2952996808, 3210313671, 3336571891, 3584528711,
   113926993, 338241895, 666307205, 773529912, 1294757372, 1396182291,
   1695183700, 1986661051, 2177026350, 2456956037, 2730485921, 2820302411,
   3259730800, 3345764771, 3516065817, 3600352804, 4094571909, 275423344,
   430227734, 506948616, 659060556, 883997877, 958139571, 1322822218,
   1537002063, 1747873779, 1955562222, 2024104815, 2227730452, 2361852424,
   2428436474, 2756734187, 3204031479, 3329325298]

/-- The SHA-256 initial hash value (FIPS 180-4, written in decimal). -/
def h256 : List Nat :=
  [1779033703, 3144134277, 1013904242, 2773480762,
   1359893119, 2600822924, 528734635, 1541459225]

/-- Big-endian 8-byte encoding. -/
def be64 (n : Nat) : Bytes :=
  [n / 2 ^ 56 % 256, n / 2 ^ 48 % 256, n / 2 ^ 40 % 256, n / 2 ^ 32 % 256,
   n / 2 ^ 24 % 256, n / 2 ^ 16 % 256, n / 2 ^ 8 % 256, n % 256]

/-- Big-endian 4-byte encoding. -/
def be32 (n : Nat) : Bytes := [n / 2 ^ 24 % 256, n / 2 ^ 16 % 256, n / 2 ^ 8 % 256, n % 256]

/-- SHA-256 message padding. -/
def sha256pad (msg : Bytes) : Bytes :=
  let L := msg.length
  let zeros := (64 + 56 - (L + 1) % 64) % 64
  msg ++ [128] ++ List.replicate zeros 0 ++ be64 (8 * L)

/-- Group bytes into big-endian 32-bit words. -/
def bytesToWords : Bytes → List Nat
  | b1 :: b2 :: b3 :: b4 :: rest => (((b1 * 256 + b2) * 256 + b3) * 256 + b4) :: bytesToWords rest
  | _ => []

/-- Group a word list into 16-word chunks (the input length is a multiple of
16 after padding; a shorter trailing group cannot occur there). -/
def chunks16 (cur : List Nat) : List Nat → List (List Nat)
  | [] => if cur.isEmpty then [] else [cur]
  | w :: ws => if cur.length = 15 then (cur ++ [w]) :: chunks16 [] ws else chunks16 (cur ++ [w]) ws

/-- One message-schedule extension step. -/
def sched1 (w : List Nat) (i : Nat) : Nat :=
  w32 (ssig1 (w.getD (i + 14) 0) + w.getD (i + 9) 0 + ssig0 (w.getD (i + 1) 0) + w.getD i 0)

/-- Extend a 16-word chunk to the 64-word message schedule. -/
def schedAll (chunk : List Nat) : List Nat :=
  (List.range 48).foldl (fun w i => w ++ [sched1 w i]) chunk

/-- One SHA-256 compression round. -/
def sha256round (st : Nat × Nat × Nat × Nat × Nat × Nat × Nat × Nat) (kw : Nat × Nat) :
    Nat × Nat × Nat × Nat × Nat × Nat × Nat × Nat :=
  match st with
  | (a, b, c, d, e, f, g, h) =>
    let t1 := w32 (h + bsig1 e + chf e f g + kw.1 + kw.2)
    let t2 := w32 (bsig0 a + majf a b c)
    (w32 (t1 + t2), a, b, c, w32 (d + t1), e, f, g)

/-- Compress one 16-word chunk into the running hash state. -/
def sha256compress (hs : List Nat) (chunk : List Nat) : List Nat :=
  let w := schedAll chunk
  let init := (hs.getD 0 0, hs.getD 1 0, hs.getD 2 0, hs.getD 3 0,
               hs.getD 4 0, hs.getD 5 0, hs.getD 6 0, hs.getD 7 0)
  match (k256.zip w).foldl sha256round init with
  | (a, b, c, d, e, f, g, h) =>
    [w32 (hs.getD 0 0 + a), w32 (hs.getD 1 0 + b), w32 (hs.getD 2 0 + c), w32 (hs.getD 3 0 + d),
     w32 (hs.getD 4 0 + e), w32 (hs.getD 5 0 + f), w32 (hs.getD 6 0 + g), w32 (hs.getD 7 0 + h)]

/-- SHA-256 digest of a byte string, as 32 bytes. -/
def sha256Bytes (msg : Bytes) : Bytes :=
  ((chunks16 [] (bytesToWords (sha256pad msg))).foldl sha256compress h256).flatMap be32

/-- One lowercase hexadecimal digit. -/
def hexDigit (n : Nat) : Char := if n < 10 then Char.ofNat (48 + n) else Char.ofNat (87 + n)

/-- Two-digit lowercase hexadecimal rendering of one byte. -/
def byteHex (b : Nat) : Text := [hexDigit (b / 16), hexDigit (b % 16)]

/-- `hashlib.sha256(t.encode()).hexdigest()`. -/
def sha256TextHex (t : Text) : Text := (sha256Bytes (utf8Encode t)).flatMap byteHex

/-- `int(hashlib.sha256(t.encode()).hexdigest(), 16)`: the digest read as a
big-endian natural number. -/
def sha256Nat (t : Text) : Nat := (sha256Bytes (utf8Encode t)).foldl (fun a b => a * 256 + b) 0

example : String.mk (sha256TextHex (T "abc")) = "ba7816bf8f01cfea414140de5dae2223b00361a396177a9cb410ff61f20015ad" := by decide

/-! ## Base64 transport decoding (`base64.b64decode`, CPython non-strict mode)

Modelled from the Python standard library called at server.py line 161:
`base64.b64decode` first requires the `str` argument to be pure ASCII, then
runs `binascii.a2b_base64` in non-strict mode, which silently discards
characters outside the base64 alphabet, stops at a completed padding
sequence, and raises `binascii.Error` only when the data characters form an
incomplete final quantum. -/

/-- Value of one base64 alphabet character, `none` for characters outside the
alphabet (which non-strict decoding ignores). -/
def b64Val (c : Char) : Option Nat :=
  let n := c.toNat
  if 65 ≤ n ∧ n ≤ 90 then some (n - 65)
  else if 97 ≤ n ∧ n ≤ 122 then some (n - 97 + 26)
  else if 48 ≤ n ∧ n ≤ 57 then some (n - 48 + 52)
  else if n = 43 then some 62
  else if n = 47 then some 63
  else none

/-- The base64 padding character `=`. -/
def padChar : Char := Char.ofNat 61

/-- `binascii.a2b_base64(.., strict_mode=False)`: state is the position in
the current 4-character quantum, the pending bits, the count of consecutive
padding characters, the count of data characters seen (used in the error
message), and the output accumulated in reverse. -/
def a2b64 : Text → Nat → Nat → Nat → Nat → Bytes → Except Text Bytes
  | [], quadPos, _, _, nd, acc =>
    if quadPos = 0 then .ok acc.reverse
    else if quadPos = 1 then
      .error (T "Invalid base64-encoded string: number of data characters (" ++
        T (Nat.repr nd) ++ T ") cannot be 1 more than a multiple of 4")
    else .error (T "Incorrect padding")
  | c :: rest, quadPos, leftchar, pads, nd, acc =>
    if c = padChar then
      if 2 ≤ quadPos then
        if 4 ≤ quadPos + (pads + 1) then .ok acc.reverse
        else a2b64 rest quadPos leftchar (pads + 1) nd acc
      else a2b64 rest quadPos leftchar pads nd acc
    else
      match b64Val c with
      | none => a2b64 rest quadPos leftchar pads nd acc
      | some v =>
        match quadPos with
        | 0 => a2b64 rest 1 v 0 (nd + 1) acc
        | 1 => a2b64 rest 2 (v % 16) 0 (nd + 1) ((leftchar * 4 + v / 16) :: acc)
        | 2 => a2b64 rest 3 (v % 4) 0 (nd + 1) ((leftchar * 16 + v / 4) :: acc)
        | _ => a2b64 rest 0 0 0 (nd + 1) ((leftchar * 64 + v) :: acc)

/-- ASCII test used by `base64.b64decode` on `str` arguments. -/
def isAsciiChar (c : Char) : Bool := c.toNat < 128

/-- `base64.b64decode(s)` for a `str` argument. -/
def b64decode (s : Text) : Except Text Bytes :=
  if s.all isAsciiChar then a2b64 s 0 0 0 0 []
  else .error (T "string argument should contain only ASCII characters")

/-! ## UTF-8 decoding with `errors='ignore'`

Modelled from the Python standard library called at server.py line 161:
`bytes.decode('utf-8', errors='ignore')` is total — each maximal subpart of
an ill-formed sequence (including overlong forms, surrogates, and values
above U+10FFFF, which CPython rejects) is silently dropped. -/

/-- UTF-8 continuation byte test. -/
def isContByte (b : Nat) : Bool := decide (128 ≤ b ∧ b < 192)

/-- Valid second byte for a three-byte lead (excludes overlongs after `E0`
and surrogates after `ED`). -/
def snd3ok (b b2 : Nat) : Bool :=
  if b = 224 then decide (160 ≤ b2 ∧ b2 ≤ 191)
  else if b = 237 then decide (128 ≤ b2 ∧ b2 ≤ 159)
  else isContByte b2

/-- Valid second byte for a four-byte lead (excludes overlongs after `F0`
and values above U+10FFFF after `F4`). -/
def snd4ok (b b2 : Nat) : Bool :=
  if b = 240 then decide (144 ≤ b2 ∧ b2 ≤ 191)
  else if b = 244 then decide (128 ≤ b2 ∧ b2 ≤ 143)
  else isContByte b2

/-- Worker for `bytes.decode('utf-8', errors='ignore')`.  The fuel argument
makes the recursion structural; every step consumes at least one byte, so
fuel equal to the byte count is always sufficient. -/
def utf8DecIg : Nat → Bytes → Text
  | 0, _ => []
  | _, [] => []
  | fuel + 1, b :: rest =>
    if b < 128 then Char.ofNat b :: utf8DecIg fuel rest
    else if 194 ≤ b ∧ b ≤ 223 then
      match rest with
      | [] => []
      | b2 :: rest2 =>
        if isContByte b2 then
          Char.ofNat ((b - 192) * 64 + (b2 - 128)) :: utf8DecIg fuel rest2
        else utf8DecIg fuel rest
    else if 224 ≤ b ∧ b ≤ 239 then
      match rest with
      | [] => []
      | b2 :: rest2 =>
        if snd3ok b b2 then
          match rest2 with
          | [] => []
          | b3 :: rest3 =>
            if isContByte b3 then
              Char.ofNat ((b - 224) * 4096 + (b2 - 128) * 64 + (b3 - 128)) :: utf8DecIg fuel rest3
            else utf8DecIg fuel rest2
        else utf8DecIg fuel rest
    else if 240 ≤ b ∧ b ≤ 244 then
      match rest with
      | [] => []
      | b2 :: rest2 =>
        if snd4ok b b2 then
          match rest2 with
          | [] => []
          | b3 :: rest3 =>
            if isContByte b3 then
              match rest3 with
              | [] => []
              | b4 :: rest4 =>
                if isContByte b4 then
                  Char.ofNat ((b - 240) * 262144 + (b2 - 128) * 4096 + (b3 - 128) * 64 + (b4 - 128)) ::
                    utf8DecIg fuel rest4
                else utf8DecIg fuel rest3
            else utf8DecIg fuel rest2
        else utf8DecIg fuel rest
    else utf8DecIg fuel rest

/-- `bytes.decode('utf-8', errors='ignore')`: total, never raises. -/
def utf8DecodeIgnore (bs : Bytes) : Text := utf8DecIg bs.length bs

instance {ε α : Type} [DecidableEq ε] [DecidableEq α] : DecidableEq (Except ε α) := fun x y =>
  match x, y with
  | .error a, .error b =>
    if h : a = b then .isTrue (by subst h; rfl)
    else .isFalse (fun hc => h (by cases hc; rfl))
  | .error _, .ok _ => .isFalse (fun hc => Except.noConfusion hc)
  | .ok _, .error _ => .isFalse (fun hc => Except.noConfusion hc)
  | .ok a, .ok b =>
    if h : a = b then .isTrue (by subst h; rfl)
    else .isFalse (fun hc => h (by cases hc; rfl))

/-- The per-file decode step of server.py line 161:
`base64.b64decode(item.content).decode('utf-8', errors='ignore')`.
The UTF-8 stage never raises; only the base64 stage can. -/
def decodeContent (content : Text) : Except Text Text :=
  (b64decode content).map utf8DecodeIgnore

example : decodeContent (T "YQ==") = .ok (T "a") := by decide
example : decodeContent (T "eA==") = .ok (T "x") := by decide
example : decodeContent (T "/w==") = .ok [] := by decide
example : b64decode (T "/w==") = .ok [255] := by decide
example : (decodeContent (T "A")).isOk = false := by decide

/-! ## `str.splitlines(keepends=True)` -/

/-- Python line-break characters other than the `\r\n` pair handling. -/
def isBreakChar (c : Char) : Bool :=
  c == lfChar || c == crChar || c == Char.ofNat 11 || c == Char.ofNat 12 ||
  c == Char.ofNat 28 || c == Char.ofNat 29 || c == Char.ofNat 30 ||
  c == Char.ofNat 133 || c == Char.ofNat 8232 || c == Char.ofNat 8233

/-- Worker for `splitlines(keepends=True)`: `pendCR` records that the
previous character was a carriage return whose line is not yet closed
(it may yet pair with a following line feed). -/
def splitLinesGo (pendCR : Bool) (acc : Text) : Text → List Text
  | [] => if pendCR then [acc ++ [crChar]] else if acc.isEmpty then [] else [acc]
  | c :: rest =>
    if pendCR then
      if c = lfChar then (acc ++ [crChar, lfChar]) :: splitLinesGo false [] rest
      else if c = crChar then (acc ++ [crChar]) :: splitLinesGo true [] rest
      else if isBreakChar c then (acc ++ [crChar]) :: [c] :: splitLinesGo false [] rest
      else (acc ++ [crChar]) :: splitLinesGo false [c] rest
    else
      if c = crChar then splitLinesGo true acc rest
      else if isBreakChar c then (acc ++ [c]) :: splitLinesGo false [] rest
      else splitLinesGo false (acc ++ [c]) rest

/-- `text.splitlines(keepends=True)` (server.py lines 201-202). -/
def splitLinesKeep (t : Text) : List Text := splitLinesGo false [] t

example : splitLinesKeep (T "a\nb") = [T "a\n", T "b"] := by decide
example : splitLinesKeep (T "a\r\nb\n") = [T "a\r\n", T "b\n"] := by decide
example : splitLinesKeep (T "a\r\rb") = [T "a\r", T "\r", T "b"] := by decide
example : splitLinesKeep (T "") = [] := by decide

/-! ## Unified diff (`difflib.unified_diff`, Python standard library)

Modelled from the Python standard library called at server.py lines 200-203:
`difflib.SequenceMatcher` with no junk predicate, whose
`find_longest_match` is documented to return, among all maximal matching
blocks, the one starting earliest in `a`, then earliest in `b`.  We realise
that documented result directly by scanning candidate starting pairs in
order.  The autojunk heuristic (which only activates when the second
sequence has at least 200 elements and is irrelevant at the inputs handled
in this development) is not modelled. -/

/-- A diff line. -/
abbrev Line := Text

/-- A matching block `(i, j, size)`, as in `difflib.Match`. -/
abbrev Block := Nat × Nat × Nat

/-- Length of the longest common prefix of two line sequences. -/
def commonPfxLen : List Line → List Line → Nat
  | x :: xs, y :: ys => if x = y then commonPfxLen xs ys + 1 else 0
  | _, _ => 0

/-- Length of the match starting at `(i, j)` inside the window
`a[alo:ahi] x b[blo:bhi]` (the window lower bounds are enforced by the
callers, which only pass `i ≥ alo`, `j ≥ blo`). -/
def runLen (a b : List Line) (ahi bhi i j : Nat) : Nat :=
  commonPfxLen ((a.take ahi).drop i) ((b.take bhi).drop j)

/-- All candidate starting pairs of the window, scanned in the tie-breaking
order of `find_longest_match`: ascending in `i`, then in `j`. -/
def candPairs (alo ahi blo bhi : Nat) : List (Nat × Nat) :=
  (List.range' alo (ahi - alo)).flatMap fun i =>
    (List.range' blo (bhi - blo)).map fun j => (i, j)

/-- Fold step retaining the first candidate of maximal match length. -/
def flmStep (a b : List Line) (ahi bhi : Nat) (best : Block) (p : Nat × Nat) : Block :=
  let k := runLen a b ahi bhi p.1 p.2
  if best.2.2 < k then (p.1, p.2, k) else best

/-- `SequenceMatcher.find_longest_match(alo, ahi, blo, bhi)`. -/
def flm (a b : List Line) (alo ahi blo bhi : Nat) : Block :=
  (candPairs alo ahi blo bhi).foldl (flmStep a b ahi bhi) (alo, blo, 0)

/-- The recursive block collection of `get_matching_blocks` (the queue in
difflib, with the final sort realised by emitting left blocks, the middle
block, then right blocks).  The fuel argument makes the recursion
structural; every recursive call strictly shrinks the window, so fuel
`a.length + b.length + 1` is always sufficient at the top call. -/
def mbRec (a b : List Line) : Nat → Nat → Nat → Nat → Nat → List Block
  | 0, _, _, _, _ => []
  | fuel + 1, alo, ahi, blo, bhi =>
    match flm a b alo ahi blo bhi with
    | (i, j, k) =>
      if k = 0 then []
      else
        (if alo < i ∧ blo < j then mbRec a b fuel alo i blo j else []) ++
          (i, j, k) :: (if i + k < ahi ∧ j + k < bhi then mbRec a b fuel (i + k) ahi (j + k) bhi else [])

/-- The adjacent-block merge loop of `get_matching_blocks`
(`non_adjacent`), carrying the pending block `(i1, j1, k1)`. -/
def mergeLoop : Block → List Block → List Block
  | (i1, j1, k1), [] => if k1 ≠ 0 then [(i1, j1, k1)] else []
  | (i1, j1, k1), (i2, j2, k2) :: rest =>
    if i1 + k1 = i2 ∧ j1 + k1 = j2 then mergeLoop (i1, j1, k1 + k2) rest
    else if k1 ≠ 0 then (i1, j1, k1) :: mergeLoop (i2, j2, k2) rest
    else mergeLoop (i2, j2, k2) rest

/-- `SequenceMatcher.get_matching_blocks()`: merged blocks followed by the
sentinel `(len(a), len(b), 0)`. -/
def matchingBlocksAll (a b : List Line) : List Block :=
  mergeLoop (0, 0, 0) (mbRec a b (a.length + b.length + 1) 0 a.length 0 b.length) ++
    [(a.length, b.length, 0)]

/-- Opcode tags, as in `get_opcodes`. -/
inductive DTag
  | rep
  | del
  | ins
  | eq
deriving DecidableEq, Repr

/-- An opcode `(tag, i1, i2, j1, j2)`. -/
structure Opcode where
  tag : DTag
  i1 : Nat
  i2 : Nat
  j1 : Nat
  j2 : Nat
deriving DecidableEq, Repr

/-- The loop of `SequenceMatcher.get_opcodes()`, walking the matching
blocks with the current positions `(i, j)`. -/
def opcodesLoop (i j : Nat) : List Block → List Opcode
  | [] => []
  | (ai, bj, k) :: rest =>
    (if i < ai ∧ j < bj then [⟨.rep, i, ai, j, bj⟩]
     else if i < ai then [⟨.del, i, ai, j, bj⟩]
     else if j < bj then [⟨.ins, i, ai, j, bj⟩]
     else []) ++
      (if k ≠ 0 then [⟨.eq, ai, ai + k, bj, bj + k⟩] else []) ++ opcodesLoop (ai + k) (bj + k) rest

/-- `SequenceMatcher.get_opcodes()`. -/
def getOpcodes (a b : List Line) : List Opcode := opcodesLoop 0 0 (matchingBlocksAll a b)

/-- Trim the left end of a leading equal opcode to `n` context lines. -/
def fixLead (n : Nat) (c : Opcode) : Opcode :=
  if c.tag = .eq then { c with i1 := max c.i1 (c.i2 - n), j1 := max c.j1 (c.j2 - n) } else c

/-- Trim the right end of a trailing equal opcode to `n` context lines. -/
def fixTrail (n : Nat) (c : Opcode) : Opcode :=
  if c.tag = .eq then { c with i2 := min c.i2 (c.i1 + n), j2 := min c.j2 (c.j1 + n) } else c

/-- Apply a function to the head of a list. -/
def modifyHead (f : Opcode → Opcode) : List Opcode → List Opcode
  | [] => []
  | c :: rest => f c :: rest

/-- Apply a function to the last element of a list. -/
def modifyLast (f : Opcode → Opcode) : List Opcode → List Opcode
  | [] => []
  | [c] => [f c]
  | c :: rest => c :: modifyLast f rest

/-- Is the group a single equal opcode (such final groups are dropped)? -/
def isSingleEq : List Opcode → Bool
  | [c] => c.tag = DTag.eq
  | _ => false

/-- The grouping loop of `get_grouped_opcodes`: split at equal opcodes wider
than `2 n` context lines, dropping a final single-equal group. -/
def groupLoop (n : Nat) (group : List Opcode) : List Opcode → List (List Opcode)
  | [] => if group.isEmpty || isSingleEq group then [] else [group]
  | c :: rest =>
    if c.tag = .eq ∧ n + n < c.i2 - c.i1 then
      (group ++ [fixTrail n c]) :: groupLoop n [fixLead n c] rest
    else groupLoop n (group ++ [c]) rest

/-- `SequenceMatcher.get_grouped_opcodes(n)` (server.py uses the default
`n = 3` context). -/
def getGroupedOpcodes (n : Nat) (codes0 : List Opcode) : List (List Opcode) :=
  let codes1 := if codes0.isEmpty then [⟨DTag.eq, 0, 1, 0, 1⟩] else codes0
  groupLoop n [] (modifyLast (fixTrail n) (modifyHead (fixLead n) codes1))

/-- `difflib._format_range_unified`. -/
def fmtRangeUnified (start stop : Nat) : Text :=
  let len := stop - start
  if len = 1 then T (Nat.repr (start + 1))
  else T (Nat.repr (if len = 0 then start else start + 1)) ++ T "," ++ T (Nat.repr len)

/-- `a[i1:i2]`. -/
def sliceLines (ls : List Line) (lo hi : Nat) : List Line := (ls.take hi).drop lo

/-- Render one group of opcodes as a hunk (`lineterm` is the empty string,
as passed by server.py line 203). -/
def renderGroup (a b : List Line) (g : List Opcode) : Text :=
  match g.head?, g.getLast? with
  | some first, some last =>
    T "@@ -" ++ fmtRangeUnified first.i1 last.i2 ++ T " +" ++ fmtRangeUnified first.j1 last.j2 ++
      T " @@" ++
      g.flatMap fun c =>
        if c.tag = .eq then (sliceLines a c.i1 c.i2).flatMap (fun l => Char.ofNat 32 :: l)
        else
          (if c.tag = .rep ∨ c.tag = .del then
            (sliceLines a c.i1 c.i2).flatMap (fun l => Char.ofNat 45 :: l)
          else []) ++
            (if c.tag = .rep ∨ c.tag = .ins then
              (sliceLines b c.j1 c.j2).flatMap (fun l => Char.ofNat 43 :: l)
            else [])
  | _, _ => []

/-- `''.join(difflib.unified_diff(a, b, fromfile, tofile, lineterm=''))`
(server.py line 203): file headers once before the first group, then the
rendered hunks. -/
def unifiedDiffText (a b : List Line) (fromfile tofile : Text) : Text :=
  match getGroupedOpcodes 3 (getOpcodes a b) with
  | [] => []
  | gs => T "--- " ++ fromfile ++ T "+++ " ++ tofile ++ gs.flatMap (renderGroup a b)

/-- The diff computation of server.py lines 200-203: split both texts into
kept-ends lines and render the unified diff with the file path as both
labels. -/
def mkDiff (path oldText newText : Text) : Text :=
  unifiedDiffText (splitLinesKeep oldText) (splitLinesKeep newText) path path

/-! ## Request/response data model (the pydantic models of server.py) -/

structure FileTreeItem where
  path : Text
  type : Text
  size : Int
deriving DecidableEq, Repr

structure SkeletonItem where
  path : Text
  content : Text
deriving DecidableEq, Repr

structure PlanRequest where
  request_id : Text
  workspace_root : Text
  file_tree : List FileTreeItem
  skeletons : List SkeletonItem
  max_skeleton_bytes : Int
deriving DecidableEq, Repr

structure TargetFile where
  path : Text
  reason : Text
deriving DecidableEq, Repr

structure PlanResponse where
  request_id : Text
  target_files : List TargetFile
  planner_version : Text
  seed : Nat
  estimated_token_cost : Nat
deriving DecidableEq, Repr

structure RefactorFile where
  path : Text
  content : Text
deriving DecidableEq, Repr

structure ResearchConstraints where
  max_papers : Int
  allowed_sources : List Text
deriving DecidableEq, Repr

structure RefactorRequest where
  request_id : Text
  target_files : List RefactorFile
  research_constraints : ResearchConstraints
  dry_run : Bool
deriving DecidableEq, Repr

structure ResultItem where
  path : Text
  orig_sha : Text
  new_sha : Text
  diff : Text
  new_content : Text
  formatting_ok : Bool
  error : Option Text
deriving DecidableEq, Repr

structure RefactorResponse where
  request_id : Text
  results : List ResultItem
  branch : Option Text
deriving DecidableEq, Repr

/-- An HTTP error response raised as `HTTPException(status_code, detail)`. -/
structure HttpError where
  status : Nat
  detail : Text
deriving DecidableEq, Repr

/-! ## The `/plan` endpoint (server.py lines 111-139) -/

/-- `sum(len(item.content) for item in request.skeletons)` (line 118):
Python `len` on `str` counts code points. -/
def totalSkeletonLen (req : PlanRequest) : Nat :=
  (req.skeletons.map fun s => s.content.length).sum

/-- Lexicographic (code-point) comparison, the order of Python `sorted` on
strings. -/
def lexLe : Text → Text → Bool
  | [], _ => true
  | _ :: _, [] => false
  | c :: cs, d :: ds => if c = d then lexLe cs ds else decide (c < d)

/-- Ordered insertion for `sortTexts`. -/
def insertSorted (x : Text) : List Text → List Text
  | [] => [x]
  | y :: ys => if lexLe x y then x :: y :: ys else y :: insertSorted x ys

/-- `sorted(...)` on texts (line 123).  Lexicographic order on texts is
antisymmetric, so any correct sort produces the same list Python does. -/
def sortTexts : List Text → List Text
  | [] => []
  | x :: xs => insertSorted x (sortTexts xs)

/-- `int(hashlib.sha256(request.request_id.encode()).hexdigest(), 16) %
(10**8)` (line 128). -/
def seedOf (rid : Text) : Nat := sha256Nat rid % 100000000

/-- The `/plan` handler (lines 111-139): validate the workspace root, then
the skeleton budget, then select every file-tree path in sorted order. -/
def planHandler (req : PlanRequest) : Except HttpError PlanResponse :=
  if hasTraversal req.workspace_root then .error ⟨400, T "Invalid workspace_root"⟩
  else if (totalSkeletonLen req : Int) > req.max_skeleton_bytes then
    .error ⟨400, T "max_skeleton_bytes exceeded"⟩
  else
    let paths := sortTexts (req.file_tree.map fun f => f.path)
    .ok ⟨req.request_id, paths.map (fun p => ⟨p, T "Refactor recommended for " ++ p⟩),
      T "1.0.0", seedOf req.request_id, totalSkeletonLen req / 4⟩

/-! ## The `/refactor` endpoint (server.py lines 141-240) -/

/-- The external formatter pipeline
`format_str(isort.code(text, profile="black"), mode=FileMode())` (lines
191-192): an opaque collaborator that either returns formatted text or
raises (modelled by `Except`, the error text being `str(e)`). -/
abbrev Formatter := Text → Except Text Text

/-- Python `path.endswith(suffix)`. -/
def endsWithText (suffix t : Text) : Bool := decide (t.drop (t.length - suffix.length) = suffix)

/-- `hashlib.sha256((request.request_id + path).encode()).hexdigest()[:8]`
(line 178). -/
def reasonId (rid path : Text) : Text := (sha256TextHex (rid ++ path)).take 8

/-- The AI-REF comment of the stubbed coder agent (lines 177-182).  `tsIso`
is `datetime.datetime.utcnow().strftime("%Y-%m-%dT%H:%M:%SZ")`, a value
read from the wall clock, passed here as a parameter. -/
def aiRefComment (rid tsIso path : Text) : Text :=
  (if endsWithText (T ".py") path then T "# AI-REF: \x7btimestamp: "
   else T "// AI-REF: \x7btimestamp: ") ++
    tsIso ++ T ", agent: " ++ [sqChar] ++ T "coder" ++ [sqChar] ++ T ", reason_id: " ++
    reasonId rid path ++ T "\x7d" ++ [lfChar]

/-- Lines 186-197 of server.py: the single `try` block that formats first
the original and then the candidate with isort+black.  An exception
anywhere in the block — including while formatting the candidate, after the
original was already formatted successfully — makes BOTH texts fall back to
their unformatted forms.  Returns
`(formatted_orig, formatted_new, formatting_ok, error_msg)`. -/
def normalizePair (fmt : Formatter) (orig cand : Text) : Text × Text × Bool × Option Text :=
  match fmt orig with
  | .error e => (orig, cand, false, some e)
  | .ok fo =>
    match fmt cand with
    | .error e => (orig, cand, false, some e)
    | .ok fn => (fo, fn, true, none)

/-- A per-file result with empty digests, diff and content and the given
error message (lines 148-156 and 163-171). -/
def errorEntry (path msg : Text) : ResultItem :=
  ⟨path, [], [], [], [], false, some msg⟩

/-- The body of the per-file loop of the `/refactor` handler (lines
145-216): path validation, transport decoding, candidate generation,
joint normalization, diff and digest computation. -/
def processFile (fmt : Formatter) (rid tsIso : Text) (item : RefactorFile) : ResultItem :=
  if hasTraversal item.path then errorEntry item.path (T "validation_error: invalid path")
  else
    match decodeContent item.content with
    | .error e => errorEntry item.path (T "decoding_error: " ++ e)
    | .ok orig =>
      let cand := aiRefComment rid tsIso item.path ++ orig
      match normalizePair fmt orig cand with
      | (fo, fn, ok, err) =>
        ⟨item.path, sha256TextHex fo, sha256TextHex fn, mkDiff item.path fo fn, fn, ok, err⟩

/-- The results list of a `/refactor` request: one entry per target file,
in input order. -/
def refactorResults (fmt : Formatter) (tsIso : Text) (req : RefactorRequest) : List ResultItem :=
  req.target_files.map (processFile fmt req.request_id tsIso)

/-- Operations issued to the external git client (lines 219-229). -/
inductive VcsOp
  | checkoutNewBranch (branch : Text)
  | writeFile (path : Text) (content : Text)
  | indexAdd (path : Text)
  | commit (msg : Text)
deriving DecidableEq, Repr

/-- Did a target file reach the comparison stage (no path or decode
error)?  Only such files reach the commit block, because the error paths
`continue` past it. -/
def fileProcessed (item : RefactorFile) : Bool :=
  !hasTraversal item.path && (decodeContent item.content).isOk

/-- The git operations attempted for one fully processed file when not in
dry-run mode (lines 219-231).  `repoOk` models whether `Repo(os.getcwd())`
succeeds; `tsCompact` is `utcnow().strftime('%Y%m%d%H%M%S')`.  After the
branch checkout the block reads `request.workspace_root`, a field the
`RefactorRequest` model does not declare, so an `AttributeError` is raised
and caught (line 230): the file write, index add and commit are never
reached. -/
def fileVcsOps (dryRun repoOk : Bool) (tsCompact : Text) (item : RefactorFile) : List VcsOp :=
  if dryRun || !fileProcessed item || !repoOk then []
  else [VcsOp.checkoutNewBranch (T "ai-refactor/" ++ tsCompact)]

/-- The external state a `/refactor` request interacts with: the formatter,
the git repository availability, and the two wall-clock readings. -/
structure RefactorExt where
  fmt : Formatter
  repoOk : Bool
  tsIso : Text
  tsCompact : Text

/-- The `/refactor` handler (lines 141-240).  The handler body raises no
`HTTPException` — per-file failures are isolated into their entries — so it
always produces a 200 response, paired here with the list of attempted git
operations. -/
def refactorHandler (ext : RefactorExt) (req : RefactorRequest) :
    Except HttpError (RefactorResponse × List VcsOp) :=
  .ok (⟨req.request_id, refactorResults ext.fmt ext.tsIso req,
        if req.dry_run then none else some (T "ai-refactor/" ++ ext.tsCompact)⟩,
    req.target_files.flatMap (fileVcsOps req.dry_run ext.repoOk ext.tsCompact))

/-! ## Concrete inputs used by witnesses and counterexamples -/

/-- A formatter that always raises (e.g. black rejecting the syntax). -/
def fmtNever : Formatter := fun _ => .error (T "Cannot parse")

/-- A formatter that succeeds exactly on the one-character text `x`. -/
def fmtOnlyX : Formatter := fun t => if t = T "x" then .ok (T "y") else .error (T "boom")

def itemGood : RefactorFile := ⟨T "good.py", T "eA=="⟩

def itemBad : RefactorFile := ⟨T "bad.py", T "A"⟩

def extW : RefactorExt := ⟨fmtNever, true, T "2024-01-01T00:00:00Z", T "20240101000000"⟩

def reqC3 : RefactorRequest := ⟨T "r3", [itemGood, itemBad], ⟨3, []⟩, true⟩

def reqC4 : RefactorRequest := ⟨T "r4", [itemGood], ⟨3, []⟩, true⟩

def reqC9 : RefactorRequest := ⟨T "r9", [itemGood, ⟨T "../up.py", T "eA=="⟩], ⟨1, [T "arxiv"]⟩, true⟩

def reqC5 : PlanRequest := ⟨T "r5", T "ws", [⟨T "../evil", T "file", 1⟩], [], 0⟩

def reqC6 : PlanRequest :=
  ⟨T "req-1", T "ws", [⟨T "m.py", T "file", 10⟩], [⟨T "m.py", T "YQ=="⟩], 100⟩

def reqC7 : PlanRequest := ⟨T "r7", T "ws", [], [⟨T "s", [Char.ofNat 233]⟩], 1⟩

def reqOver : PlanRequest := ⟨T "r0", T "ws", [], [⟨T "s", T "YQ=="⟩], 3⟩

/-! ## Lemmas about the diff engine -/

lemma commonPfxLen_self (l : List Line) : commonPfxLen l l = l.length := by
  induction l with
  | nil => rfl
  | cons x xs ih => simp [commonPfxLen, ih]

lemma commonPfxLen_le_left : ∀ xs ys : List Line, commonPfxLen xs ys ≤ xs.length := by
  intro xs
  induction xs with
  | nil => intro ys; cases ys <;> simp [commonPfxLen]
  | cons x xs ih =>
    intro ys
    cases ys with
    | nil => simp [commonPfxLen]
    | cons y ys =>
      by_cases h : x = y
      · simpa [commonPfxLen, h] using ih ys
      · simp [commonPfxLen, h]

lemma commonPfxLen_le_right : ∀ xs ys : List Line, commonPfxLen xs ys ≤ ys.length := by
  intro xs
  induction xs with
  | nil => intro ys; cases ys <;> simp [commonPfxLen]
  | cons x xs ih =>
    intro ys
    cases ys with
    | nil => simp [commonPfxLen]
    | cons y ys =>
      by_cases h : x = y
      · simpa [commonPfxLen, h] using ih ys
      · simp [commonPfxLen, h]

lemma commonPfxLen_take_eq : ∀ xs ys : List Line,
    xs.take (commonPfxLen xs ys) = ys.take (commonPfxLen xs ys) := by
  intro xs
  induction xs with
  | nil => intro ys; cases ys <;> simp [commonPfxLen]
  | cons x xs ih =>
    intro ys
    cases ys with
    | nil => simp [commonPfxLen]
    | cons y ys =>
      by_cases h : x = y
      · simp [commonPfxLen, h, ih ys]
      · simp [commonPfxLen, h]

lemma runLen_le_left (a b : List Line) (ahi bhi i j : Nat) :
    runLen a b ahi bhi i j ≤ ahi - i := by
  have h := commonPfxLen_le_left ((a.take ahi).drop i) ((b.take bhi).drop j)
  have : ((a.take ahi).drop i).length ≤ ahi - i := by
    simp [List.length_drop, List.length_take]
    omega
  exact le_trans h this

lemma runLen_le_right (a b : List Line) (ahi bhi i j : Nat) :
    runLen a b ahi bhi i j ≤ bhi - j := by
  have h := commonPfxLen_le_right ((a.take ahi).drop i) ((b.take bhi).drop j)
  have : ((b.take bhi).drop j).length ≤ bhi - j := by
    simp [List.length_drop, List.length_take]
    omega
  exact le_trans h this

/-- A valid matching block: the two segments agree and lie inside the
sequences. -/
def BMatch (a b : List Line) (ai bj k : Nat) : Prop :=
  (a.drop ai).take k = (b.drop bj).take k ∧ ai + k ≤ a.length ∧ bj + k ≤ b.length

lemma runLen_bmatch (a b : List Line) (ahi bhi i j : Nat)
    (ha : ahi ≤ a.length) (hb : bhi ≤ b.length) (hi : i ≤ ahi) (hj : j ≤ bhi) :
    BMatch a b i j (runLen a b ahi bhi i j) := by
  set k := runLen a b ahi bhi i j with hk
  have hkl : k ≤ ahi - i := runLen_le_left a b ahi bhi i j
  have hkr : k ≤ bhi - j := runLen_le_right a b ahi bhi i j
  refine ⟨?_, by omega, by omega⟩
  have h3 : ((a.take ahi).drop i).take k = ((b.take bhi).drop j).take k := by
    rw [hk]
    simp only [runLen]
    exact commonPfxLen_take_eq _ _
  have hA : ((a.take ahi).drop i).take k = (a.drop i).take k := by
    rw [List.drop_take, List.take_take]
    congr 1
    omega
  have hB : ((b.take bhi).drop j).take k = (b.drop j).take k := by
    rw [List.drop_take, List.take_take]
    congr 1
    omega
  rw [hA, hB] at h3
  exact h3

lemma foldl_flmStep_const (a b : List Line) (ahi bhi : Nat) :
    ∀ (l : List (Nat × Nat)) (best : Block),
      (∀ p ∈ l, runLen a b ahi bhi p.1 p.2 ≤ best.2.2) →
      l.foldl (flmStep a b ahi bhi) best = best := by
  intro l
  induction l with
  | nil => intro best _; rfl
  | cons p rest ih =>
    intro best hbd
    have hp : runLen a b ahi bhi p.1 p.2 ≤ best.2.2 := hbd p (by simp)
    have hstep : flmStep a b ahi bhi best p = best := by
      simp only [flmStep]
      have : ¬ best.2.2 < runLen a b ahi bhi p.1 p.2 := by omega
      simp [this]
    rw [List.foldl_cons, hstep]
    exact ih best fun q hq => hbd q (by simp [hq])

lemma flm_self (a : List Line) : flm a a 0 a.length 0 a.length = (0, 0, a.length) := by
  cases ha : a with
  | nil => simp [flm, candPairs, ha]
  | cons x xs =>
    rw [← ha]
    have hlen : a.length = xs.length + 1 := by rw [ha]; simp
    have hcp : candPairs 0 a.length 0 a.length =
        (0, 0) :: ((List.range' 1 (a.length - 1)).map (fun j => (0, j)) ++
          (List.range' 1 (a.length - 1)).flatMap fun i =>
            (List.range' 0 a.length).map fun j => (i, j)) := by
      simp only [candPairs, Nat.sub_zero]
      rw [show a.length = (a.length - 1) + 1 by omega, List.range'_succ]
      simp [List.flatMap_cons, List.range'_succ]
    rw [flm, hcp, List.foldl_cons]
    have hrl : runLen a a a.length a.length 0 0 = a.length := by
      simp [runLen, List.take_length, commonPfxLen_self]
    have hstep : flmStep a a a.length a.length (0, 0, 0) (0, 0) = (0, 0, a.length) := by
      simp only [flmStep, hrl]
      have : (0 : Nat) < a.length := by omega
      simp [this]
    rw [hstep]
    exact foldl_flmStep_const a a a.length a.length _ _
      (fun p _ => le_trans (runLen_le_left a a a.length a.length p.1 p.2)
        (Nat.sub_le _ _))

lemma foldl_flmStep_spec (a b : List Line) (ahi bhi : Nat) :
    ∀ (l : List (Nat × Nat)) (best : Block),
      l.foldl (flmStep a b ahi bhi) best = best ∨
        ∃ p ∈ l, l.foldl (flmStep a b ahi bhi) best =
          (p.1, p.2, runLen a b ahi bhi p.1 p.2) := by
  intro l
  induction l with
  | nil => intro best; left; rfl
  | cons p rest ih =>
    intro best
    rw [List.foldl_cons]
    by_cases h : best.2.2 < runLen a b ahi bhi p.1 p.2
    · have hstep : flmStep a b ahi bhi best p = (p.1, p.2, runLen a b ahi bhi p.1 p.2) := by
        simp [flmStep, h]
      rw [hstep]
      rcases ih (p.1, p.2, runLen a b ahi bhi p.1 p.2) with h1 | ⟨q, hq, h2⟩
      · right; exact ⟨p, by simp, h1⟩
      · right; exact ⟨q, by simp [hq], h2⟩
    · have hstep : flmStep a b ahi bhi best p = best := by simp [flmStep, h]
      rw [hstep]
      rcases ih best with h1 | ⟨q, hq, h2⟩
      · left; exact h1
      · right; exact ⟨q, by simp [hq], h2⟩

lemma flm_spec (a b : List Line) (alo ahi blo bhi : Nat) :
    flm a b alo ahi blo bhi = (alo, blo, 0) ∨
      ∃ i j, alo ≤ i ∧ i < ahi ∧ blo ≤ j ∧ j < bhi ∧
        flm a b alo ahi blo bhi = (i, j, runLen a b ahi bhi i j) := by
  rcases foldl_flmStep_spec a b ahi bhi (candPairs alo ahi blo bhi) (alo, blo, 0) with h | ⟨p, hp, h⟩
  · left; exact h
  · right
    refine ⟨p.1, p.2, ?_, ?_, ?_, ?_, h⟩ <;>
    · simp only [candPairs, List.mem_flatMap, List.mem_map, List.mem_range'_1] at hp
      obtain ⟨i, hi, j, hj, hpe⟩ := hp
      subst hpe
      simp at hi hj ⊢
      omega

/-- An ordered list of valid matching blocks, progressing from position
`(i, j)` to at most `(iE, jE)`. -/
def ChainBtw (a b : List Line) : Nat → Nat → List Block → Nat → Nat → Prop
  | i, j, [], iE, jE => i ≤ iE ∧ j ≤ jE
  | i, j, (ai, bj, k) :: rest, iE, jE =>
    i ≤ ai ∧ j ≤ bj ∧ BMatch a b ai bj k ∧ ChainBtw a b (ai + k) (bj + k) rest iE jE

lemma ChainBtw_mono (a b : List Line) :
    ∀ (bs : List Block) (i j i' j' iE jE : Nat), i ≤ i' → j ≤ j' →
      ChainBtw a b i' j' bs iE jE → ChainBtw a b i j bs iE jE := by
  intro bs
  cases bs with
  | nil =>
    intro i j i' j' iE jE hi hj h
    obtain ⟨h1, h2⟩ := h
    exact ⟨by omega, by omega⟩
  | cons blk rest =>
    obtain ⟨ai, bj, k⟩ := blk
    intro i j i' j' iE jE hi hj h
    obtain ⟨h1, h2, h3, h4⟩ := h
    exact ⟨by omega, by omega, h3, h4⟩

lemma ChainBtw_append (a b : List Line) :
    ∀ (bs1 : List Block) (i j m m' iE jE : Nat) (bs2 : List Block),
      ChainBtw a b i j bs1 m m' → ChainBtw a b m m' bs2 iE jE →
      ChainBtw a b i j (bs1 ++ bs2) iE jE := by
  intro bs1
  induction bs1 with
  | nil =>
    intro i j m m' iE jE bs2 h1 h2
    obtain ⟨hi, hj⟩ := h1
    exact ChainBtw_mono a b bs2 i j m m' iE jE hi hj h2
  | cons blk rest ih =>
    obtain ⟨ai, bj, k⟩ := blk
    intro i j m m' iE jE bs2 h1 h2
    obtain ⟨ha, hb, hm, hc⟩ := h1
    exact ⟨ha, hb, hm, ih (ai + k) (bj + k) m m' iE jE bs2 hc h2⟩

lemma mbRec_chain (a b : List Line) :
    ∀ (fuel alo ahi blo bhi : Nat), alo ≤ ahi → blo ≤ bhi →
      ahi ≤ a.length → bhi ≤ b.length →
      ChainBtw a b alo blo (mbRec a b fuel alo ahi blo bhi) ahi bhi := by
  intro fuel
  induction fuel with
  | zero => intro alo ahi blo bhi h1 h2 _ _; exact ⟨h1, h2⟩
  | succ fuel ih =>
    intro alo ahi blo bhi h1 h2 ha hb
    show ChainBtw a b alo blo
      (match flm a b alo ahi blo bhi with
       | (i, j, k) =>
         if k = 0 then []
         else
           (if alo < i ∧ blo < j then mbRec a b fuel alo i blo j else []) ++
             (i, j, k) :: (if i + k < ahi ∧ j + k < bhi then
               mbRec a b fuel (i + k) ahi (j + k) bhi else [])) ahi bhi
    rcases flm_spec a b alo ahi blo bhi with hf | ⟨i, j, hi1, hi2, hj1, hj2, hf⟩
    · rw [hf]
      simp only
      exact ⟨h1, h2⟩
    · rw [hf]
      simp only
      by_cases hk : runLen a b ahi bhi i j = 0
      · simp only [hk, if_pos rfl]
        exact ⟨h1, h2⟩
      · rw [if_neg hk]
        set k := runLen a b ahi bhi i j with hkdef
        have hbm : BMatch a b i j k :=
          runLen_bmatch a b ahi bhi i j ha hb (by omega) (by omega)
        have hik : i + k ≤ ahi := by
          have := runLen_le_left a b ahi bhi i j
          omega
        have hjk : j + k ≤ bhi := by
          have := runLen_le_right a b ahi bhi i j
          omega
        have hmid : ChainBtw a b i j ((i, j, k) ::
            (if i + k < ahi ∧ j + k < bhi then
              mbRec a b fuel (i + k) ahi (j + k) bhi else [])) ahi bhi := by
          refine ⟨le_refl i, le_refl j, hbm, ?_⟩
          by_cases hr : i + k < ahi ∧ j + k < bhi
          · rw [if_pos hr]
            exact ih (i + k) ahi (j + k) bhi (by omega) (by omega) ha hb
          · rw [if_neg hr]
            exact ⟨hik, hjk⟩
        by_cases hl : alo < i ∧ blo < j
        · rw [if_pos hl]
          exact ChainBtw_append a b _ alo blo i j ahi bhi _
            (ih alo i blo j (by omega) (by omega) (by omega) (by omega)) hmid
        · rw [if_neg hl]
          rw [List.nil_append]
          exact ChainBtw_mono a b _ alo blo i j ahi bhi (by omega) (by omega) hmid

lemma bmatch_merge (a b : List Line) (ai bj k1 k2 : Nat)
    (h1 : BMatch a b ai bj k1) (h2 : BMatch a b (ai + k1) (bj + k1) k2) :
    BMatch a b ai bj (k1 + k2) := by
  obtain ⟨e1, ha1, hb1⟩ := h1
  obtain ⟨e2, ha2, hb2⟩ := h2
  refine ⟨?_, by omega, by omega⟩
  rw [List.take_add, List.take_add]
  have hda : (a.drop ai).drop k1 = a.drop (ai + k1) := by
    rw [List.drop_drop]
  have hdb : (b.drop bj).drop k1 = b.drop (bj + k1) := by
    rw [List.drop_drop]
  rw [hda, hdb, e1, e2]

lemma mergeLoop_chain (a b : List Line) :
    ∀ (bs : List Block) (c : Block) (i j iE jE : Nat),
      ChainBtw a b i j (c :: bs) iE jE → ChainBtw a b i j (mergeLoop c bs) iE jE := by
  intro bs
  induction bs with
  | nil =>
    intro c i j iE jE h
    obtain ⟨ai, bj, k⟩ := c
    obtain ⟨h1, h2, h3, h4, h5⟩ := h
    show ChainBtw a b i j (if k ≠ 0 then [(ai, bj, k)] else []) iE jE
    by_cases hk : k = 0
    · simp only [hk, ne_eq, not_true_eq_false, if_false]
      exact ⟨by omega, by omega⟩
    · simp only [ne_eq, hk, not_false_eq_true, if_true]
      exact ⟨h1, h2, h3, h4, h5⟩
  | cons c2 rest ih =>
    intro c i j iE jE h
    obtain ⟨ai, bj, k⟩ := c
    obtain ⟨ai2, bj2, k2⟩ := c2
    obtain ⟨h1, h2, h3, h4⟩ := h
    obtain ⟨h5, h6, h7, h8⟩ := h4
    show ChainBtw a b i j
      (if ai + k = ai2 ∧ bj + k = bj2 then mergeLoop (ai, bj, k + k2) rest
       else if k ≠ 0 then (ai, bj, k) :: mergeLoop (ai2, bj2, k2) rest
       else mergeLoop (ai2, bj2, k2) rest) iE jE
    by_cases hadj : ai + k = ai2 ∧ bj + k = bj2
    · rw [if_pos hadj]
      apply ih (ai, bj, k + k2) i j iE jE
      refine ⟨h1, h2, ?_, ?_⟩
      · exact bmatch_merge a b ai bj k k2 h3 (by rw [hadj.1, hadj.2]; exact h7)
      · have : ai + (k + k2) = ai2 + k2 := by omega
        rw [this]
        have : bj + (k + k2) = bj2 + k2 := by omega
        rw [this]
        exact h8
    · rw [if_neg hadj]
      by_cases hk : k = 0
      · simp only [hk, ne_eq, not_true_eq_false, if_false]
        apply ih (ai2, bj2, k2) i j iE jE
        exact ⟨by omega, by omega, h7, h8⟩
      · simp only [ne_eq, hk, not_false_eq_true, if_true]
        refine ⟨h1, h2, h3, ?_⟩
        exact ih (ai2, bj2, k2) (ai + k) (bj + k) iE jE ⟨h5, h6, h7, h8⟩

lemma matchingBlocksAll_chain (a b : List Line) :
    ChainBtw a b 0 0 (matchingBlocksAll a b) a.length b.length := by
  apply ChainBtw_append a b _ 0 0 a.length b.length a.length b.length
  · apply mergeLoop_chain
    refine ⟨le_refl 0, le_refl 0, ⟨by simp, by simp, by simp⟩, ?_⟩
    simpa using mbRec_chain a b (a.length + b.length + 1) 0 a.length 0 b.length
      (by omega) (by omega) (by omega) (by omega)
  · exact ⟨le_refl _, le_refl _, ⟨by simp, by simp, by simp⟩, le_refl _, le_refl _⟩

lemma matchingBlocksAll_getLast (a b : List Line) :
    (matchingBlocksAll a b).getLast? = some (a.length, b.length, 0) :=
  List.getLast?_concat _

lemma opcodesLoop_tail_subset (i j ai bj k : Nat) (rest : List Block) :
    ∀ c ∈ opcodesLoop (ai + k) (bj + k) rest, c ∈ opcodesLoop i j ((ai, bj, k) :: rest) := by
  intro c hc
  show c ∈ _ ++ _ ++ opcodesLoop (ai + k) (bj + k) rest
  simp [hc]

lemma chain_all_eq (a b : List Line) :
    ∀ (bs : List Block) (i j : Nat),
      ChainBtw a b i j bs a.length b.length →
      bs.getLast? = some (a.length, b.length, 0) →
      (∀ c ∈ opcodesLoop i j bs, c.tag = DTag.eq) →
      a.drop i = b.drop j := by
  intro bs
  induction bs with
  | nil => intro i j _ hlast _; simp at hlast
  | cons blk rest ih =>
    obtain ⟨ai, bj, k⟩ := blk
    intro i j hch hlast hall
    obtain ⟨h1, h2, hbm, hch2⟩ := hch
    have htags : ai ≤ i ∧ bj ≤ j := by
      by_contra hcon
      have hlt : (i < ai ∧ j < bj) ∨ (i < ai ∧ ¬ j < bj) ∨ (¬ i < ai ∧ j < bj) := by
        omega
      rcases hlt with h | h | h
      · have : (⟨DTag.rep, i, ai, j, bj⟩ : Opcode) ∈ opcodesLoop i j ((ai, bj, k) :: rest) := by
          simp [opcodesLoop, h]
        have := hall _ this
        simp at this
      · have : (⟨DTag.del, i, ai, j, bj⟩ : Opcode) ∈ opcodesLoop i j ((ai, bj, k) :: rest) := by
          simp [opcodesLoop, h.1, h.2]
        have := hall _ this
        simp at this
      · have : (⟨DTag.ins, i, ai, j, bj⟩ : Opcode) ∈ opcodesLoop i j ((ai, bj, k) :: rest) := by
          simp [opcodesLoop, h.1, h.2]
        have := hall _ this
        simp at this
    have hai : ai = i := by omega
    have hbj : bj = j := by omega
    subst hai hbj
    obtain ⟨hseg, hka, hkb⟩ := hbm
    cases rest with
    | nil =>
      simp at hlast
      obtain ⟨hA, hB, _⟩ := hlast
      subst hA
      subst hB
      rw [List.drop_length, List.drop_length]
    | cons blk2 rest2 =>
      have hlast2 : (blk2 :: rest2).getLast? = some (a.length, b.length, 0) := by
        rw [← hlast]
        rfl
      have hall2 : ∀ c ∈ opcodesLoop (ai + k) (bj + k) (blk2 :: rest2), c.tag = DTag.eq := by
        intro c hc
        exact hall c (opcodesLoop_tail_subset ai bj ai bj k (blk2 :: rest2) c hc)
      have hrec := ih (ai + k) (bj + k) hch2 hlast2 hall2
      calc a.drop ai = (a.drop ai).take k ++ (a.drop ai).drop k := (List.take_append_drop k _).symm
        _ = (b.drop bj).take k ++ a.drop (ai + k) := by rw [hseg, List.drop_drop, Nat.add_comm]
        _ = (b.drop bj).take k ++ b.drop (bj + k) := by rw [hrec]
        _ = (b.drop bj).take k ++ (b.drop bj).drop k := by rw [List.drop_drop, Nat.add_comm]
        _ = b.drop bj := List.take_append_drop k _

/-- If every generated opcode is an `equal`, the sequences are equal. -/
lemma eq_of_opcodes_all_eq (a b : List Line)
    (hall : ∀ c ∈ getOpcodes a b, c.tag = DTag.eq) : a = b := by
  have := chain_all_eq a b (matchingBlocksAll a b) 0 0
    (matchingBlocksAll_chain a b) (matchingBlocksAll_getLast a b) hall
  simpa using this

lemma isSingleEq_false_of_noneq (g : List Opcode) (c : Opcode) (hc : c ∈ g)
    (hne : c.tag ≠ DTag.eq) : isSingleEq g = false := by
  cases g with
  | nil => simp at hc
  | cons x rest =>
    cases rest with
    | nil =>
      simp at hc
      subst hc
      simp [isSingleEq, hne]
    | cons y rest2 => rfl

lemma groupLoop_ne_nil (n : Nat) :
    ∀ (codes group : List Opcode),
      ((∃ c ∈ group, c.tag ≠ DTag.eq) ∨ (∃ c ∈ codes, c.tag ≠ DTag.eq)) →
      groupLoop n group codes ≠ [] := by
  intro codes
  induction codes with
  | nil =>
    intro group h
    rcases h with ⟨c, hc, hne⟩ | ⟨c, hc, _⟩
    · show (if group.isEmpty || isSingleEq group then [] else [group]) ≠ []
      have h1 : group.isEmpty = false := by
        cases group with
        | nil => simp at hc
        | cons _ _ => rfl
      have h2 : isSingleEq group = false := isSingleEq_false_of_noneq group c hc hne
      simp [h1, h2]
    · simp at hc
  | cons c rest ih =>
    intro group h
    show (if c.tag = DTag.eq ∧ n + n < c.i2 - c.i1 then
        (group ++ [fixTrail n c]) :: groupLoop n [fixLead n c] rest
      else groupLoop n (group ++ [c]) rest) ≠ []
    by_cases hsplit : c.tag = DTag.eq ∧ n + n < c.i2 - c.i1
    · rw [if_pos hsplit]
      simp
    · rw [if_neg hsplit]
      apply ih
      rcases h with ⟨d, hd, hne⟩ | ⟨d, hd, hne⟩
      · left; exact ⟨d, by simp [hd], hne⟩
      · simp only [List.mem_cons] at hd
        rcases hd with hd | hd
        · left
          refine ⟨c, by simp, ?_⟩
          rw [← hd]
          exact hne
        · right; exact ⟨d, hd, hne⟩

lemma fixLead_tag (n : Nat) (c : Opcode) : (fixLead n c).tag = c.tag := by
  simp only [fixLead]
  by_cases h : c.tag = DTag.eq <;> simp [h]

lemma fixTrail_tag (n : Nat) (c : Opcode) : (fixTrail n c).tag = c.tag := by
  simp only [fixTrail]
  by_cases h : c.tag = DTag.eq <;> simp [h]

lemma modifyHead_noneq (f : Opcode → Opcode) (hf : ∀ c, (f c).tag = c.tag)
    (l : List Opcode) (h : ∃ c ∈ l, c.tag ≠ DTag.eq) :
    ∃ c ∈ modifyHead f l, c.tag ≠ DTag.eq := by
  obtain ⟨c, hc, hne⟩ := h
  cases l with
  | nil => simp at hc
  | cons x rest =>
    simp only [List.mem_cons] at hc
    rcases hc with hc | hc
    · subst hc
      exact ⟨f c, by simp [modifyHead], by rw [hf]; exact hne⟩
    · exact ⟨c, by simp [modifyHead, hc], hne⟩

lemma modifyLast_noneq (f : Opcode → Opcode) (hf : ∀ c, (f c).tag = c.tag) :
    ∀ (l : List Opcode), (∃ c ∈ l, c.tag ≠ DTag.eq) →
      ∃ c ∈ modifyLast f l, c.tag ≠ DTag.eq := by
  intro l
  induction l with
  | nil => intro h; simp at h
  | cons x rest ih =>
    intro h
    obtain ⟨c, hc, hne⟩ := h
    cases rest with
    | nil =>
      simp at hc
      subst hc
      exact ⟨f c, by simp [modifyLast], by rw [hf]; exact hne⟩
    | cons y rest2 =>
      simp only [List.mem_cons] at hc
      rcases hc with hc | hc
      · subst hc
        exact ⟨c, by simp [modifyLast], hne⟩
      · obtain ⟨d, hd, hdne⟩ := ih ⟨c, List.mem_cons.mpr hc, hne⟩
        refine ⟨d, ?_, hdne⟩
        show d ∈ x :: modifyLast f (y :: rest2)
        exact List.mem_cons_of_mem x hd

/-- If some opcode is not an `equal`, the grouped opcodes are nonempty. -/
lemma grouped_ne_nil_of_noneq (n : Nat) (codes : List Opcode)
    (h : ∃ c ∈ codes, c.tag ≠ DTag.eq) : getGroupedOpcodes n codes ≠ [] := by
  have hne : codes.isEmpty = false := by
    obtain ⟨c, hc, _⟩ := h
    cases codes with
    | nil => simp at hc
    | cons _ _ => rfl
  show (let codes1 := if codes.isEmpty then [⟨DTag.eq, 0, 1, 0, 1⟩] else codes
    groupLoop n [] (modifyLast (fixTrail n) (modifyHead (fixLead n) codes1))) ≠ []
  simp only [hne, Bool.false_eq_true, if_false]
  apply groupLoop_ne_nil
  right
  exact modifyLast_noneq _ (fixTrail_tag n) _ (modifyHead_noneq _ (fixLead_tag n) _ h)

lemma mbRec_self (a : List Line) :
    mbRec a a (a.length + a.length + 1) 0 a.length 0 a.length =
      if a.length = 0 then [] else [(0, 0, a.length)] := by
  show (match flm a a 0 a.length 0 a.length with
    | (i, j, k) =>
      if k = 0 then []
      else
        (if 0 < i ∧ 0 < j then mbRec a a (a.length + a.length) 0 i 0 j else []) ++
          (i, j, k) :: (if i + k < a.length ∧ j + k < a.length then
            mbRec a a (a.length + a.length) (i + k) a.length (j + k) a.length else [])) =
      if a.length = 0 then [] else [(0, 0, a.length)]
  rw [flm_self]
  by_cases h : a.length = 0
  · simp [h]
  · simp [h]

lemma matchingBlocksAll_self (a : List Line) :
    matchingBlocksAll a a =
      if a.length = 0 then [(0, 0, 0)] else [(0, 0, a.length), (a.length, a.length, 0)] := by
  unfold matchingBlocksAll
  rw [mbRec_self]
  by_cases h : a.length = 0
  · simp [h, mergeLoop]
  · simp only [h, Bool.false_eq_true, if_false]
    show mergeLoop (0, 0, 0) [(0, 0, a.length)] ++ [(a.length, a.length, 0)] = _
    simp [mergeLoop, h]

lemma getOpcodes_self (a : List Line) :
    getOpcodes a a = if a.length = 0 then [] else [⟨DTag.eq, 0, a.length, 0, a.length⟩] := by
  unfold getOpcodes
  rw [matchingBlocksAll_self]
  by_cases h : a.length = 0
  · simp [h, opcodesLoop]
  · simp [h, opcodesLoop]

lemma grouped_nil : getGroupedOpcodes 3 [] = [] := by rfl

lemma grouped_single_eq (la : Nat) :
    getGroupedOpcodes 3 [⟨DTag.eq, 0, la, 0, la⟩] = [] := by
  have h1 : max 0 (la - 3) = la - 3 := by omega
  have h2 : min la (la - 3 + 3) = la := by omega
  have h3 : ¬ (3 + 3 < la - (la - 3)) := by omega
  simp [getGroupedOpcodes, modifyHead, modifyLast, fixLead, fixTrail, groupLoop, isSingleEq,
    h1, h2, h3]

lemma unifiedDiffText_self (a : List Line) (ff tf : Text) : unifiedDiffText a a ff tf = [] := by
  have hg : getGroupedOpcodes 3 (getOpcodes a a) = [] := by
    rw [getOpcodes_self]
    by_cases h : a.length = 0
    · rw [if_pos h]; exact grouped_nil
    · rw [if_neg h]; exact grouped_single_eq a.length
  unfold unifiedDiffText
  rw [hg]

lemma unifiedDiffText_ne (a b : List Line) (ff tf : Text) (h : a ≠ b) :
    unifiedDiffText a b ff tf ≠ [] := by
  have hex : ∃ c ∈ getOpcodes a b, c.tag ≠ DTag.eq := by
    by_contra hcon
    push_neg at hcon
    exact h (eq_of_opcodes_all_eq a b hcon)
  have hg := grouped_ne_nil_of_noneq 3 (getOpcodes a b) hex
  unfold unifiedDiffText
  cases hgs : getGroupedOpcodes 3 (getOpcodes a b) with
  | nil => exact absurd hgs hg
  | cons g gs =>
    intro hcon
    have : (T "--- " ++ ff ++ (T "+++ " ++ tf ++ (g :: gs).flatMap (renderGroup a b))) = [] := by
      rw [← hcon]
      simp [T]
    simp [T] at this

/-- The diff engine produces the empty string exactly on equal line
sequences. -/
lemma unifiedDiffText_empty_iff (a b : List Line) (ff tf : Text) :
    unifiedDiffText a b ff tf = [] ↔ a = b := by
  constructor
  · intro h
    by_contra hne
    exact unifiedDiffText_ne a b ff tf hne h
  · intro h
    subst h
    exact unifiedDiffText_self a ff tf

lemma splitLinesGo_join : ∀ (t : Text) (pend : Bool) (acc : Text),
    (splitLinesGo pend acc t).foldr (· ++ ·) [] = acc ++ (if pend then [crChar] else []) ++ t := by
  intro t
  induction t with
  | nil =>
    intro pend acc
    cases pend with
    | false =>
      show ((if acc.isEmpty then [] else [acc]).foldr (· ++ ·) []) = _
      by_cases h : acc.isEmpty
      · have : acc = [] := by simpa using h
        simp [h, this]
      · simp [h]
    | true => simp [splitLinesGo]
  | cons c rest ih =>
    intro pend acc
    cases pend with
    | true =>
      show ((if c = lfChar then (acc ++ [crChar, lfChar]) :: splitLinesGo false [] rest
        else if c = crChar then (acc ++ [crChar]) :: splitLinesGo true [] rest
        else if isBreakChar c then (acc ++ [crChar]) :: [c] :: splitLinesGo false [] rest
        else (acc ++ [crChar]) :: splitLinesGo false [c] rest).foldr (· ++ ·) []) = _
      by_cases h1 : c = lfChar
      · subst h1
        simp [ih]
      · rw [if_neg h1]
        by_cases h2 : c = crChar
        · subst h2
          simp [ih]
        · rw [if_neg h2]
          by_cases h3 : isBreakChar c
          · simp [h3, ih]
          · simp [h3, ih]
    | false =>
      show ((if c = crChar then splitLinesGo true acc rest
        else if isBreakChar c then (acc ++ [c]) :: splitLinesGo false [] rest
        else splitLinesGo false (acc ++ [c]) rest).foldr (· ++ ·) []) = _
      by_cases h1 : c = crChar
      · subst h1
        simp [ih]
      · rw [if_neg h1]
        by_cases h2 : isBreakChar c
        · simp [h2, ih]
        · simp [h2, ih]

lemma splitLinesKeep_join (t : Text) : (splitLinesKeep t).foldr (· ++ ·) [] = t := by
  simpa using splitLinesGo_join t false []

lemma splitLinesKeep_inj {t1 t2 : Text} (h : splitLinesKeep t1 = splitLinesKeep t2) : t1 = t2 := by
  rw [← splitLinesKeep_join t1, ← splitLinesKeep_join t2, h]

/-- The server's diff (over kept-ends line splits with equal labels) is
empty exactly when the two compared texts are equal. -/
lemma mkDiff_empty_iff (path oldT newT : Text) : mkDiff path oldT newT = [] ↔ oldT = newT := by
  unfold mkDiff
  rw [unifiedDiffText_empty_iff]
  constructor
  · exact splitLinesKeep_inj
  · intro h
    rw [h]

/-! ## Lemmas about the endpoints -/

lemma insertSorted_perm (x : Text) :
    ∀ l : List Text, List.Perm (insertSorted x l) (x :: l) := by
  intro l
  induction l with
  | nil => exact List.Perm.refl _
  | cons y ys ih =>
    show List.Perm (if lexLe x y then x :: y :: ys else y :: insertSorted x ys) (x :: y :: ys)
    by_cases h : lexLe x y
    · rw [if_pos h]
    · rw [if_neg h]
      exact List.Perm.trans (List.Perm.cons y ih) (List.Perm.swap x y ys)

lemma sortTexts_perm : ∀ l : List Text, List.Perm (sortTexts l) l := by
  intro l
  induction l with
  | nil => exact List.Perm.refl _
  | cons x xs ih => exact List.Perm.trans (insertSorted_perm x _) (List.Perm.cons x ih)

lemma sortTexts_mem {x : Text} {l : List Text} : x ∈ sortTexts l ↔ x ∈ l :=
  (sortTexts_perm l).mem_iff

/-- Inversion of the `/plan` handler on success. -/
lemma planHandler_ok_iff (req : PlanRequest) (resp : PlanResponse) :
    planHandler req = .ok resp ↔
      hasTraversal req.workspace_root = false ∧
      ¬ ((totalSkeletonLen req : Int) > req.max_skeleton_bytes) ∧
      resp = ⟨req.request_id,
        (sortTexts (req.file_tree.map fun f => f.path)).map
          (fun p => ⟨p, T "Refactor recommended for " ++ p⟩),
        T "1.0.0", seedOf req.request_id, totalSkeletonLen req / 4⟩ := by
  unfold planHandler
  by_cases h1 : hasTraversal req.workspace_root
  · simp [h1]
  · by_cases h2 : (totalSkeletonLen req : Int) > req.max_skeleton_bytes
    · simp [h1, h2]
    · simp [h1, h2, eq_comm]

lemma utf8Len_ascii : ∀ t : Text, t.all isAsciiChar = true → utf8Len t = t.length := by
  intro t
  induction t with
  | nil => intro _; rfl
  | cons c cs ih =>
    intro h
    simp only [List.all_cons, Bool.and_eq_true] at h
    have hc : (utf8Char c).length = 1 := by
      have : c.toNat < 128 := by
        have := h.1
        simp [isAsciiChar] at this
        exact this
      simp [utf8Char, this]
    have : utf8Len (c :: cs) = (utf8Char c).length + utf8Len cs := by
      simp [utf8Len, utf8Encode]
    rw [this, hc, ih h.2]
    simp [List.length_cons]
    omega

lemma skeleton_bytes_eq_chars (sk : List SkeletonItem)
    (h : ∀ s ∈ sk, s.content.all isAsciiChar = true) :
    (sk.map fun s => utf8Len s.content).sum = (sk.map fun s => s.content.length).sum := by
  induction sk with
  | nil => rfl
  | cons s rest ih =>
    simp only [List.map_cons, List.sum_cons]
    rw [utf8Len_ascii s.content (h s (by simp)), ih fun x hx => h x (by simp [hx])]

lemma flatMap_nil_fun {α β : Type} (l : List α) : l.flatMap (fun _ => ([] : List β)) = [] := by
  induction l with
  | nil => rfl
  | cons x xs ih => simp [ih]

/-- Inversion of the per-file processing when the comparison stage is
reached. -/
lemma processFile_ok (fmt : Formatter) (rid tsIso : Text) (item : RefactorFile)
    (h1 : hasTraversal item.path = false) (orig : Text)
    (h2 : decodeContent item.content = .ok orig) :
    processFile fmt rid tsIso item =
      (match normalizePair fmt orig (aiRefComment rid tsIso item.path ++ orig) with
       | (fo, fn, ok, err) =>
         ⟨item.path, sha256TextHex fo, sha256TextHex fn, mkDiff item.path fo fn, fn, ok, err⟩) := by
  unfold processFile
  rw [h1]
  simp only [Bool.false_eq_true, if_false, h2]

/-- The two error cases of the per-file processing produce an empty-digest,
empty-diff entry with a nonempty error message. -/
lemma processFile_err (fmt : Formatter) (rid tsIso : Text) (item : RefactorFile)
    (h : hasTraversal item.path = true ∨ (decodeContent item.content).isOk = false) :
    ∃ msg, processFile fmt rid tsIso item = ⟨item.path, [], [], [], [], false, some msg⟩ ∧
      msg ≠ [] := by
  by_cases h1 : hasTraversal item.path
  · refine ⟨T "validation_error: invalid path", ?_, by simp [T]⟩
    unfold processFile
    rw [h1]
    simp [errorEntry]
  · rcases h with h | h
    · exact absurd h h1
    · cases h2 : decodeContent item.content with
      | ok v => rw [h2] at h; simp [Except.isOk, Except.toBool] at h
      | error e =>
        refine ⟨T "decoding_error: " ++ e, ?_, by simp [T]⟩
        unfold processFile
        rw [if_neg h1, h2]
        simp [errorEntry]

/-! ## Claim theorems -/

/-- Claim C1: for every `/refactor` result entry that reaches the diff
computation, `orig_sha` and `new_sha` are the SHA-256 digests of exactly the
two texts that were passed to the diff, and `new_content` equals the new
side of that comparison — the same pair `(fo, fn)` produced by the (possibly
falling back) normalization feeds the diff, both digests, and
`new_content`. -/
theorem refactor_entry_consistent (fmt : Formatter) (rid tsIso : Text) (item : RefactorFile)
    (h1 : hasTraversal item.path = false) (orig : Text)
    (h2 : decodeContent item.content = .ok orig) :
    ∃ fo fn ok err,
      normalizePair fmt orig (aiRefComment rid tsIso item.path ++ orig) = (fo, fn, ok, err) ∧
      processFile fmt rid tsIso item =
        ⟨item.path, sha256TextHex fo, sha256TextHex fn, mkDiff item.path fo fn, fn, ok, err⟩ := by
  rcases hnp : normalizePair fmt orig (aiRefComment rid tsIso item.path ++ orig)
    with ⟨fo, fn, ok, err⟩
  refine ⟨fo, fn, ok, err, rfl, ?_⟩
  rw [processFile_ok fmt rid tsIso item h1 orig h2, hnp]

theorem refactor_entry_consistent_witness :
    hasTraversal itemGood.path = false ∧ decodeContent itemGood.content = .ok (T "x") ∧
    ∃ fo fn ok err,
      normalizePair fmtNever (T "x") (aiRefComment (T "r") (T "TS") itemGood.path ++ T "x") =
        (fo, fn, ok, err) ∧
      processFile fmtNever (T "r") (T "TS") itemGood =
        ⟨itemGood.path, sha256TextHex fo, sha256TextHex fn, mkDiff itemGood.path fo fn, fn,
          ok, err⟩ :=
  ⟨by decide, by decide,
    refactor_entry_consistent fmtNever (T "r") (T "TS") itemGood (by decide) (T "x") (by decide)⟩

/-- Claim C2 counterexample: a formatter failure on one side DOES force the
other side to fall back.  With a formatter that succeeds on the original
text `x` (returning `y`) but fails on the candidate, the per-file pipeline
compares — and digests — the unnormalized original `x`, not `y`. -/
theorem normalize_not_independent_cex :
    fmtOnlyX (T "x") = .ok (T "y") ∧
    normalizePair fmtOnlyX (T "x") (T "z") = (T "x", T "z", false, some (T "boom")) ∧
    T "y" ≠ T "x" ∧
    (processFile fmtOnlyX (T "r") (T "TS") itemGood).formatting_ok = false ∧
    (processFile fmtOnlyX (T "r") (T "TS") itemGood).orig_sha = sha256TextHex (T "x") :=
  ⟨by decide, by decide, by decide, by decide, rfl⟩

/-- Claim C2 amended: the two sides are normalized inside one joint
`try` block: `formatting_ok` is recorded as true exactly when both sides
normalized cleanly, but a formatter failure on either side makes BOTH sides
fall back to their unnormalized forms. -/
theorem normalize_joint_spec (fmt : Formatter) (orig cand : Text) :
    ∃ fo fn ok err, normalizePair fmt orig cand = (fo, fn, ok, err) ∧
      (ok = true ↔ (fmt orig).isOk = true ∧ (fmt cand).isOk = true) ∧
      (ok = true → fmt orig = .ok fo ∧ fmt cand = .ok fn ∧ err = none) ∧
      (ok = false → fo = orig ∧ fn = cand ∧ err ≠ none) := by
  cases h1 : fmt orig with
  | error e =>
    refine ⟨orig, cand, false, some e, ?_, ?_, by simp, by simp⟩
    · unfold normalizePair
      rw [h1]
    · simp [Except.isOk, Except.toBool]
  | ok fo =>
    cases h2 : fmt cand with
    | error e =>
      refine ⟨orig, cand, false, some e, ?_, ?_, by simp, by simp⟩
      · unfold normalizePair
        rw [h1, h2]
      · simp [Except.isOk, Except.toBool]
    | ok fn =>
      refine ⟨fo, fn, true, none, ?_, ?_, fun _ => ⟨rfl, rfl, rfl⟩, by simp⟩
      · unfold normalizePair
        rw [h1, h2]
      · simp [Except.isOk, Except.toBool]

theorem normalize_joint_spec_witness :
    ∃ fo fn ok err, normalizePair fmtNever (T "p") (T "q") = (fo, fn, ok, err) ∧
      (ok = true ↔ (fmtNever (T "p")).isOk = true ∧ (fmtNever (T "q")).isOk = true) ∧
      (ok = true → fmtNever (T "p") = .ok fo ∧ fmtNever (T "q") = .ok fn ∧ err = none) ∧
      (ok = false → fo = T "p" ∧ fn = T "q" ∧ err ≠ none) :=
  normalize_joint_spec fmtNever (T "p") (T "q")

/-- Claim C3: every `/refactor` request yields a 200 response whose results
list has exactly one entry per target file in input order (entry `i` is the
per-file pipeline applied to target `i`); a target with a parent-directory
path segment or undecodable content yields an entry with empty digests,
empty diff and a nonempty error, while every other entry is still the
normal pipeline output. -/
theorem refactor_batch_spec (ext : RefactorExt) (req : RefactorRequest) :
    ∃ resp ops, refactorHandler ext req = .ok (resp, ops) ∧
      resp.results.length = req.target_files.length ∧
      ∀ (i : Nat) (item : RefactorFile), req.target_files[i]? = some item →
        resp.results[i]? = some (processFile ext.fmt req.request_id ext.tsIso item) ∧
        ((hasTraversal item.path = true ∨ (decodeContent item.content).isOk = false) →
          ∃ msg, processFile ext.fmt req.request_id ext.tsIso item =
            ⟨item.path, [], [], [], [], false, some msg⟩ ∧ msg ≠ []) := by
  refine ⟨⟨req.request_id, refactorResults ext.fmt ext.tsIso req,
    if req.dry_run then none else some (T "ai-refactor/" ++ ext.tsCompact)⟩,
    req.target_files.flatMap (fileVcsOps req.dry_run ext.repoOk ext.tsCompact), rfl, ?_, ?_⟩
  · show (refactorResults ext.fmt ext.tsIso req).length = _
    simp [refactorResults]
  · intro i item hit
    constructor
    · show (refactorResults ext.fmt ext.tsIso req)[i]? = _
      simp [refactorResults, List.getElem?_map, hit]
    · intro h
      exact processFile_err ext.fmt req.request_id ext.tsIso item h

theorem refactor_batch_spec_witness :
    ((refactorResults extW.fmt extW.tsIso reqC3).length = 2 ∧
      (refactorResults extW.fmt extW.tsIso reqC3)[1]?.map (fun e => (e.orig_sha, e.diff)) =
        some ([], []) ∧
      (refactorResults extW.fmt extW.tsIso reqC3)[1]?.map (fun e => e.error.isSome) =
        some true) ∧
    ∃ resp ops, refactorHandler extW reqC3 = .ok (resp, ops) ∧
      resp.results.length = reqC3.target_files.length ∧
      ∀ (i : Nat) (item : RefactorFile), reqC3.target_files[i]? = some item →
        resp.results[i]? = some (processFile extW.fmt reqC3.request_id extW.tsIso item) ∧
        ((hasTraversal item.path = true ∨ (decodeContent item.content).isOk = false) →
          ∃ msg, processFile extW.fmt reqC3.request_id extW.tsIso item =
            ⟨item.path, [], [], [], [], false, some msg⟩ ∧ msg ≠ []) :=
  ⟨by decide, refactor_batch_spec extW reqC3⟩

/-- Claim C4 counterexample: the comparison results DO depend on the wall
clock — the generated candidate embeds the current UTC timestamp, so the
same request processed at two different times yields different
`new_content`. -/
theorem refactor_time_dependent_cex :
    (refactorResults fmtNever (T "2024-01-01T00:00:00Z") reqC4).map (fun e => e.new_content) ≠
      (refactorResults fmtNever (T "2024-01-01T00:00:01Z") reqC4).map (fun e => e.new_content) := by
  decide

/-- Claim C4 amended: the per-file comparison results are a deterministic
function of the request identifier, the target files, the formatter
behavior and the invocation timestamp; in particular they are independent
of `dry_run` and `research_constraints`.  They are NOT a function of the
request alone: the generated candidate embeds the current UTC time (see the
counterexample). -/
theorem refactor_results_determined (fmt : Formatter) (tsIso rid : Text)
    (tfs : List RefactorFile) (rc1 rc2 : ResearchConstraints) (d1 d2 : Bool) :
    refactorResults fmt tsIso ⟨rid, tfs, rc1, d1⟩ =
      refactorResults fmt tsIso ⟨rid, tfs, rc2, d2⟩ := rfl

/-- Claim C5 counterexample: `/plan` does not filter file-tree paths for
parent-directory segments — a tree entry `../evil` is returned verbatim as
a target. -/
theorem plan_traversal_cex :
    (planHandler reqC5).toOption.map (fun r => r.target_files.map fun t => t.path) =
      some [T "../evil"] ∧
    hasTraversal (T "../evil") = true := by decide

/-- Claim C5 amended: every path in the returned `target_files` is a member
of the request's file-tree path set (no fabricated paths), and the returned
paths are traversal-free provided every input file-tree path is (only
`workspace_root` itself is validated; tree paths are returned as-is). -/
theorem plan_targets_spec (req : PlanRequest)
    (hroot : hasTraversal req.workspace_root = false)
    (hbytes : (totalSkeletonLen req : Int) ≤ req.max_skeleton_bytes) :
    ∃ resp, planHandler req = .ok resp ∧
      (∀ t ∈ resp.target_files, t.path ∈ req.file_tree.map fun f => f.path) ∧
      ((∀ f ∈ req.file_tree, hasTraversal f.path = false) →
        ∀ t ∈ resp.target_files, hasTraversal t.path = false) := by
  refine ⟨_, (planHandler_ok_iff req _).mpr ⟨hroot, not_lt.mpr hbytes, rfl⟩, ?_, ?_⟩
  · intro t ht
    simp only [List.mem_map] at ht
    obtain ⟨p, hp, hpe⟩ := ht
    subst hpe
    exact sortTexts_mem.mp hp
  · intro hall t ht
    simp only [List.mem_map] at ht
    obtain ⟨p, hp, hpe⟩ := ht
    subst hpe
    have hmem : p ∈ req.file_tree.map fun f => f.path := sortTexts_mem.mp hp
    simp only [List.mem_map] at hmem
    obtain ⟨f, hf, hfe⟩ := hmem
    subst hfe
    exact hall f hf

theorem plan_targets_spec_witness :
    hasTraversal reqC6.workspace_root = false ∧
    (totalSkeletonLen reqC6 : Int) ≤ reqC6.max_skeleton_bytes ∧
    ∃ resp, planHandler reqC6 = .ok resp ∧
      (∀ t ∈ resp.target_files, t.path ∈ reqC6.file_tree.map fun f => f.path) ∧
      ((∀ f ∈ reqC6.file_tree, hasTraversal f.path = false) →
        ∀ t ∈ resp.target_files, hasTraversal t.path = false) :=
  ⟨by decide, by decide, plan_targets_spec reqC6 (by decide) (by decide)⟩

/-- Claim C6: for every request passing validation, the `/plan` seed equals
the SHA-256 hash of `request_id` reduced modulo `10^8`, lies below `10^8`,
and depends only on `request_id` (any other validated request with the same
identifier gets the same seed). -/
theorem plan_seed_spec (req : PlanRequest)
    (hroot : hasTraversal req.workspace_root = false)
    (hbytes : (totalSkeletonLen req : Int) ≤ req.max_skeleton_bytes) :
    ∃ resp, planHandler req = .ok resp ∧
      resp.seed = sha256Nat req.request_id % 100000000 ∧
      resp.seed < 100000000 ∧
      ∀ (req' : PlanRequest) (resp' : PlanResponse), planHandler req' = .ok resp' →
        req'.request_id = req.request_id → resp'.seed = resp.seed := by
  refine ⟨_, (planHandler_ok_iff req _).mpr ⟨hroot, not_lt.mpr hbytes, rfl⟩, rfl, ?_, ?_⟩
  · show seedOf req.request_id < 100000000
    exact Nat.mod_lt _ (by norm_num)
  · intro req' resp' h' hid
    obtain ⟨_, _, hr⟩ := (planHandler_ok_iff req' resp').mp h'
    rw [hr]
    show seedOf req'.request_id = seedOf req.request_id
    rw [hid]

theorem plan_seed_spec_witness :
    hasTraversal reqC6.workspace_root = false ∧
    (totalSkeletonLen reqC6 : Int) ≤ reqC6.max_skeleton_bytes ∧
    ∃ resp, planHandler reqC6 = .ok resp ∧
      resp.seed = sha256Nat reqC6.request_id % 100000000 ∧
      resp.seed < 100000000 ∧
      ∀ (req' : PlanRequest) (resp' : PlanResponse), planHandler req' = .ok resp' →
        req'.request_id = reqC6.request_id → resp'.seed = resp.seed :=
  ⟨by decide, by decide, plan_seed_spec reqC6 (by decide) (by decide)⟩

/-- Claim C7 counterexample: the budget check counts characters
(`len(item.content)`), not bytes — a one-character skeleton weighing two
UTF-8 bytes passes a one-byte budget. -/
theorem plan_budget_bytes_cex :
    (reqC7.skeletons.map fun s => utf8Len s.content).sum = 2 ∧
    reqC7.max_skeleton_bytes = 1 ∧
    (planHandler reqC7).isOk = true := by decide

/-- Claim C7 amended: with sizes measured as character (code point) counts
of the transport-encoded content — which coincide with byte counts for
ASCII base64 payloads — an over-budget request gets a 400 validation error
before any planning work, and otherwise `estimated_token_cost` is the total
size divided by 4. -/
theorem plan_budget_spec (req : PlanRequest) :
    ((totalSkeletonLen req : Int) > req.max_skeleton_bytes →
      ∃ e, planHandler req = .error e ∧ e.status = 400) ∧
    (hasTraversal req.workspace_root = false →
      (totalSkeletonLen req : Int) ≤ req.max_skeleton_bytes →
      ∃ resp, planHandler req = .ok resp ∧
        resp.estimated_token_cost = totalSkeletonLen req / 4) ∧
    ((∀ s ∈ req.skeletons, s.content.all isAsciiChar = true) →
      (req.skeletons.map fun s => utf8Len s.content).sum = totalSkeletonLen req) := by
  refine ⟨?_, ?_, ?_⟩
  · intro h
    unfold planHandler
    by_cases h1 : hasTraversal req.workspace_root
    · exact ⟨⟨400, T "Invalid workspace_root"⟩, by rw [if_pos h1], rfl⟩
    · refine ⟨⟨400, T "max_skeleton_bytes exceeded"⟩, ?_, rfl⟩
      rw [if_neg h1, if_pos h]
  · intro h1 h2
    exact ⟨_, (planHandler_ok_iff req _).mpr ⟨h1, not_lt.mpr h2, rfl⟩, rfl⟩
  · intro h
    exact skeleton_bytes_eq_chars req.skeletons h

theorem plan_budget_spec_witness :
    (totalSkeletonLen reqOver : Int) > reqOver.max_skeleton_bytes ∧
    (∃ e, planHandler reqOver = .error e ∧ e.status = 400) ∧
    hasTraversal reqC6.workspace_root = false := by
  refine ⟨by decide, ?_, by decide⟩
  exact (plan_budget_spec reqOver).1 (by decide)

/-- Claim C8: the unified diff computed over the two normalized (possibly
fallen-back) texts is the empty string exactly when those two texts are
identical, and nonempty whenever they differ. -/
theorem diff_normalized_empty_iff (fmt : Formatter) (a b path : Text) :
    ∃ fo fn ok err, normalizePair fmt a b = (fo, fn, ok, err) ∧
      (mkDiff path fo fn = [] ↔ fo = fn) := by
  rcases hnp : normalizePair fmt a b with ⟨fo, fn, ok, err⟩
  exact ⟨fo, fn, ok, err, rfl, mkDiff_empty_iff path fo fn⟩

theorem diff_normalized_empty_iff_witness :
    mkDiff (T "f.py") (T "p\n") (T "p\n") = [] ∧
    mkDiff (T "f.py") (T "p\n") (T "q\n") ≠ [] ∧
    ∃ fo fn ok err, normalizePair fmtNever (T "p\n") (T "q\n") = (fo, fn, ok, err) ∧
      (mkDiff (T "f.py") fo fn = [] ↔ fo = fn) :=
  ⟨by decide, by decide, diff_normalized_empty_iff fmtNever (T "p\n") (T "q\n") (T "f.py")⟩

/-- Claim C9: with `dry_run = true`, the `/refactor` response's `branch` is
null and no git operation is issued, regardless of per-file outcomes. -/
theorem refactor_dry_run_frame (ext : RefactorExt) (req : RefactorRequest)
    (h : req.dry_run = true) :
    ∃ resp, refactorHandler ext req = .ok (resp, []) ∧ resp.branch = none := by
  refine ⟨⟨req.request_id, refactorResults ext.fmt ext.tsIso req, none⟩, ?_, rfl⟩
  unfold refactorHandler
  rw [h]
  simp [fileVcsOps, flatMap_nil_fun]

theorem refactor_dry_run_frame_witness :
    reqC9.dry_run = true ∧
    ∃ resp, refactorHandler extW reqC9 = .ok (resp, []) ∧ resp.branch = none :=
  ⟨by decide, refactor_dry_run_frame extW reqC9 (by decide)⟩

/-- Claim C10: the per-file decode step fails exactly when the base64 stage
fails; when the base64 payload is well-formed the step always succeeds —
bytes that are not valid UTF-8 are silently dropped by
`errors='ignore'` rather than producing a decode error. -/
theorem decode_ignore_spec (content : Text) :
    (decodeContent content).isOk = (b64decode content).isOk ∧
    (∀ bs, b64decode content = .ok bs → decodeContent content = .ok (utf8DecodeIgnore bs)) ∧
    (∀ e, b64decode content = .error e → decodeContent content = .error e) := by
  unfold decodeContent
  cases h : b64decode content with
  | ok bs => exact ⟨rfl, fun bs' hbs => by simp_all [Except.map], fun e he => by simp_all⟩
  | error e => exact ⟨rfl, fun bs' hbs => by simp_all, fun e' he => by simp_all [Except.map]⟩

theorem decode_ignore_spec_witness :
    b64decode (T "/w==") = .ok [255] ∧
    decodeContent (T "/w==") = .ok (utf8DecodeIgnore [255]) ∧
    utf8DecodeIgnore [255] = [] ∧
    (decodeContent (T "A")).isOk = false :=
  ⟨by decide, (decode_ignore_spec (T "/w==")).2.1 [255] (by decide), by decide, by decide⟩
